import Mathlib

/-!
Verification development for the STRAP repository's two numerical cores:
the Gaussian pseudo-label synthesizer (`data_preprocess/cad120/gaussians.py`)
and the loss-combination protocol of the training step (`main.py`), together
with a model of the min-norm gradient solver described by the specification.

The Python code is shallowly embedded: numpy arrays become total functions
with explicit shape fields, floating-point numbers become exact reals (for
the transcendental Gaussian surface) or rationals (for the purely algebraic
solver and loss arithmetic), and fallible operations return `Except`.
-/

namespace Strap

open Matrix

/-- A row of the keypoint annotation table `keypoints.txt`, as used by
`gaussians`: columns 0..4 are image id, bounding-box id, 1-based channel
index, keypoint row and keypoint column.  `np.loadtxt` yields floats, so
every field is modelled as an exact rational. -/
structure Row where
  imageId : ℚ
  bbId : ℚ
  channel : ℚ
  row : ℚ
  col : ℚ
deriving DecidableEq

/-- The reference array `loadmat(file_path)["data"]`: a rows × cols × channels
numeric array, modelled as a total function together with its shape. -/
structure RefArray where
  rows : ℕ
  cols : ℕ
  channels : ℕ
  val : ℕ → ℕ → ℕ → ℚ

/-- The five-element list `btemp = [y[j,3], y[j,4], gaussian_size**2,
gaussian_size**2, 0]` handed to `get_llkh`: mean row, mean column, the two
diagonal variances and the off-diagonal covariance. -/
structure Btemp where
  mr : ℝ
  mc : ℝ
  v1 : ℝ
  v2 : ℝ
  cv : ℝ

/-- The pickled output volume of `gaussians`: a height × width × channels
array of small naturals (the Python code stores `np.uint8` values). -/
structure Volume where
  height : ℕ
  width : ℕ
  channels : ℕ
  val : ℕ → ℕ → ℕ → ℕ

/-- `crop_size = 321` in `gaussians`. -/
def crop_size : ℕ := 321

/-- `gaussian_size = 50` in `gaussians`. -/
def gaussian_size : ℕ := 50

/-- Row coordinate of flat grid index `k`: the code builds
`allr = np.tile(np.arange(1, 322).reshape(1,-1), (1, 321)).reshape(-1,1)`,
whose entry at flat index `k` is `k % 321 + 1`. -/
def allr (k : ℕ) : ℕ := k % crop_size + 1

/-- Column coordinate of flat grid index `k`: the code builds
`allc = np.tile(np.arange(1, 322).reshape(-1,1), (1, 321)).reshape(-1,1)`,
whose entry at flat index `k` is `k / 321 + 1`. -/
def allc (k : ℕ) : ℕ := k / crop_size + 1

/-- The covariance matrix `covrc = [[btemp[2], btemp[4]], [btemp[4], btemp[3]]]`
built inside `get_llkh`. -/
noncomputable def covrcOf (b : Btemp) : Matrix (Fin 2) (Fin 2) ℝ :=
  !![b.v1, b.cv; b.cv, b.v2]

/-- Pointwise value of the likelihood surface computed by `get_llkh`:
`const * exp(-0.5 * diff @ pinv(covrc) @ diff)` with
`const = 1 / sqrt(det(covrc) * 2 * pi)`, evaluated at grid coordinate
`(r, c)`.  `np.linalg.pinv` coincides with the matrix inverse on the
invertible covariance matrices this program constructs (the program only
ever passes the fixed matrix `diag(50**2, 50**2)`). -/
noncomputable def get_llkh (b : Btemp) (r c : ℝ) : ℝ :=
  (1 / Real.sqrt ((covrcOf b).det * (2 * Real.pi))) *
    Real.exp (-(1 / 2) *
      (![r - b.mr, c - b.mc] ⬝ᵥ ((covrcOf b)⁻¹ *ᵥ ![r - b.mr, c - b.mc])))

/-- Entry `(i, j)` of the reshaped 321 × 321 likelihood surface
`llkh = (const * np.exp(expt)).reshape((crop_size, crop_size))`:
the flat index of `(i, j)` is `321 * i + j`. -/
noncomputable def llkhAt (b : Btemp) (i j : ℕ) : ℝ :=
  get_llkh b (allr (crop_size * i + j)) (allc (crop_size * i + j))

/-- `np.max(np.max(llkh))`: the maximum of the surface over the whole grid. -/
noncomputable def llkhMax (b : Btemp) : ℝ :=
  (Finset.range (crop_size * crop_size)).sup'
    (by simp [crop_size, Finset.nonempty_range_iff])
    (fun k => get_llkh b (allr k) (allc k))

/-- The thresholding `llkh > np.max(np.max(llkh)) / np.e` at pixel `(i, j)`. -/
noncomputable def llkhThresh (b : Btemp) (i j : ℕ) : Prop :=
  llkhMax b / Real.exp 1 < llkhAt b i j

open Classical in
/-- The `np.uint8` bit obtained from `(llkh > max / e).astype(np.uint8)`
at pixel `(i, j)`. -/
noncomputable def maskBit (b : Btemp) (i j : ℕ) : ℕ :=
  if llkhThresh b i j then 1 else 0

/-- The `btemp` list `[y[j,3], y[j,4], gaussian_size**2, gaussian_size**2, 0]`
built by `gaussians` from a matched keypoint row. -/
noncomputable def btempOf (r : Row) : Btemp :=
  ⟨(r.row : ℝ), (r.col : ℝ), (gaussian_size : ℝ) ^ 2, (gaussian_size : ℝ) ^ 2, 0⟩

/-- `os.path.basename`: the part of the path after the last slash. -/
def basename (p : String) : String :=
  ⟨p.toList.foldl (fun acc ch => if ch = '/' then [] else acc ++ [ch]) []⟩

/-- Python's `int(...)` applied to a character slice: an optional sign
followed by at least one decimal digit parses; anything else raises
`ValueError` (modelled as `Except.error`). -/
def pyInt (s : List Char) : Except String ℤ :=
  let signAndDigits : ℤ × List Char :=
    match s with
    | '-' :: rest => (-1, rest)
    | '+' :: rest => (1, rest)
    | _ => (1, s)
  if signAndDigits.2 ≠ [] ∧ signAndDigits.2.all Char.isDigit then
    Except.ok (signAndDigits.1 *
      (signAndDigits.2.foldl (fun acc ch => acc * 10 + ((ch.toNat - 48 : ℕ) : ℤ)) 0))
  else Except.error "invalid literal for int"

/-- The id-parsing prelude of `gaussians`:
`image_id = int(file_name[1:5])` and `bb_id = int(file_name[6])` on the
basename of `file_path`.  Indexing position 6 of a shorter string raises
`IndexError`, also modelled as an error. -/
def parseIds (file_path : String) : Except String (ℤ × ℤ) :=
  match pyInt (((basename file_path).toList.drop 1).take 4) with
  | Except.error e => Except.error e
  | Except.ok imageId =>
    match (basename file_path).toList.get? 6 with
    | none => Except.error "string index out of range"
    | some c6 =>
      match pyInt [c6] with
      | Except.error e => Except.error e
      | Except.ok bbId => Except.ok (imageId, bbId)

/-- The keypoint rows selected for channel `i` (0-based):
`y = keypoints[keypoints[:,0] == image_id]`, then `y = y[y[:,1] == bb_id]`,
then `y = y[y[:,2] == i + 1]`. -/
def matchedRows (keypoints : List Row) (imageId bbId : ℤ) (i : ℕ) : List Row :=
  ((keypoints.filter (fun r => decide (r.imageId = (imageId : ℚ)))).filter
    (fun r => decide (r.bbId = (bbId : ℚ)))).filter
    (fun r => decide (r.channel = (i : ℚ) + 1))

/-- Decides whether a keypoint row's 1-based channel index value lies in
`{1, ..., C}`: these are exactly the values the per-channel selection of
`gaussians` can ever match. -/
def inRangeChannel (C : ℕ) (q : ℚ) : Bool :=
  (List.range C).any (fun i => decide (q = (i : ℚ) + 1))

/-- The guard `np.max(np.max(input[:, :, i])) > 0` on channel `i` of the
reference array: some entry of the channel is positive. -/
def anyPositive (a : RefArray) (i : ℕ) : Bool :=
  (List.range a.rows).any (fun r =>
    (List.range a.cols).any (fun c => decide (0 < a.val r c i)))

/-- Channel `ch` of the synthesized volume at pixel `(i, j)`: the channel
starts at zero and, when the reference channel has a positive entry, each
matched keypoint's thresholded blob is merged in by
`data[:, :, i] = np.maximum(data[:, :, i], llkh.astype(np.uint8))`. -/
noncomputable def gaussiansChannel (keypoints : List Row) (imageId bbId : ℤ)
    (input : RefArray) (ch i j : ℕ) : ℕ :=
  if anyPositive input ch then
    (matchedRows keypoints imageId bbId ch).foldl
      (fun acc r => max acc (maskBit (btempOf r) i j)) 0
  else 0

/-- The full output array `data` of `gaussians` (after `astype(np.uint8)`):
a 321 × 321 × channels volume; indices outside the array read as zero. -/
noncomputable def volumeOf (keypoints : List Row) (imageId bbId : ℤ)
    (input : RefArray) : Volume where
  height := crop_size
  width := crop_size
  channels := input.channels
  val := fun i j ch =>
    if i < crop_size ∧ j < crop_size ∧ ch < input.channels then
      gaussiansChannel keypoints imageId bbId input ch i j
    else 0

/-- The function `gaussians(keypoints, file_path, save_path)`: parse the ids
from the file name, then synthesize the volume.  The value returned on
success is the array that the code pickles to `save_path`; an error result
models an exception raised before anything is written. -/
noncomputable def gaussians (keypoints : List Row) (file_path : String)
    (input : RefArray) : Except String Volume :=
  match parseIds file_path with
  | Except.error e => Except.error e
  | Except.ok ids => Except.ok (volumeOf keypoints ids.1 ids.2 input)

/-- The set of pixels of output channel `ch` that are on (equal to 1). -/
noncomputable def onSet (keypoints : List Row) (imageId bbId : ℤ)
    (input : RefArray) (ch : ℕ) : Set (ℕ × ℕ) :=
  {p | (volumeOf keypoints imageId bbId input).val p.1 p.2 ch = 1}

/-- 4-adjacency of two pixel indices. -/
def adj4 (p q : ℕ × ℕ) : Prop :=
  (p.1 = q.1 ∧ (p.2 = q.2 + 1 ∨ q.2 = p.2 + 1)) ∨
  (p.2 = q.2 ∧ (p.1 = q.1 + 1 ∨ q.1 = p.1 + 1))

/-- Connectivity inside a pixel set: a chain of 4-adjacent steps staying
in the set. -/
def connWithin (S : Set (ℕ × ℕ)) (p q : ℕ × ℕ) : Prop :=
  Relation.ReflTransGen (fun a b => b ∈ S ∧ adj4 a b) p q

/-- A pixel set is grid-connected when every two of its members are joined
by a 4-adjacent chain inside it. -/
def gridConnected (S : Set (ℕ × ℕ)) : Prop :=
  ∀ p ∈ S, ∀ q ∈ S, connWithin S p q

/-- Modelled from the spec: the 2D Gaussian probability density with mean
`(mr, mc)` and isotropic covariance matrix `diag(v, v)` with zero
off-diagonal covariance, its inverse taken as a pseudo-inverse (which for
these invertible matrices is the ordinary inverse), in the standard
normalization `1 / (2 * pi * sqrt det)`. -/
noncomputable def specGaussianDensity (mr mc v r c : ℝ) : ℝ :=
  (1 / (2 * Real.pi * Real.sqrt ((!![v, 0; 0, v] : Matrix (Fin 2) (Fin 2) ℝ).det))) *
    Real.exp (-(1 / 2) *
      (![r - mr, c - mc] ⬝ᵥ ((!![v, 0; 0, v] : Matrix (Fin 2) (Fin 2) ℝ)⁻¹ *ᵥ ![r - mr, c - mc])))

/-! ## Min-norm gradient solver

`MinNormSolver.find_min_norm_element` is imported in `main.py` from a
`utils` module whose source is not part of the provided files; the
definitions below are modelled from the specification's description of the
algorithm (pairwise Gram matrix, two-point initialization, Frank-Wolfe
refinement with analytic clipped step size, tolerance 1e-5, cap 250,
equal-split fallback on degenerate denominators, K = 1 fast path). -/

/-- Dot product of two flattened tensors. -/
def dotVec (a b : List ℚ) : ℚ := (List.zipWith (fun x y => x * y) a b).sum

/-- Modelled from the spec: the dot product of two per-task gradient
vector-sets, the sum of element-wise products across all positional
tensors. -/
def dotGrads (a b : List (List ℚ)) : ℚ := (List.zipWith dotVec a b).sum

/-- Modelled from the spec: entry `(i, j)` of the pairwise Gram matrix of
the task gradients. -/
def gram (grads : List (List (List ℚ))) (i j : ℕ) : ℚ :=
  dotGrads (grads.getD i []) (grads.getD j [])

/-- Clipping to the unit interval. -/
def clip01 (x : ℚ) : ℚ := max 0 (min 1 x)

/-- Modelled from the spec: the analytic minimizer of the squared norm on
the segment between gradients `i` and `j`, as weight on `i`, from the Gram
entries; degenerate denominators fall back to an equal split, and the
result is clipped to `[0, 1]`. -/
def pairGamma (vii vij vjj : ℚ) : ℚ :=
  if vii + vjj - 2 * vij = 0 then 1 / 2
  else clip01 ((vjj - vij) / (vii + vjj - 2 * vij))

/-- The squared norm attained at the two-point minimizer for the pair with
the given Gram entries. -/
def pairCost (vii vij vjj : ℚ) : ℚ :=
  (pairGamma vii vij vjj) ^ 2 * vii +
    2 * pairGamma vii vij vjj * (1 - pairGamma vii vij vjj) * vij +
    (1 - pairGamma vii vij vjj) ^ 2 * vjj

/-- All ordered pairs `(i, j)` with `i < j < K`. -/
def pairList (K : ℕ) : List (ℕ × ℕ) :=
  (List.range K).flatMap (fun i =>
    ((List.range K).filter (fun j => decide (i < j))).map (fun j => (i, j)))

/-- Modelled from the spec: the initial weight vector, the best two-point
analytic minimizer over all pairs of tasks (each clipped split includes the
one-hot vectors as boundary cases). -/
def initWeights (M : ℕ → ℕ → ℚ) (K : ℕ) : ℕ → ℚ :=
  match (pairList K).argmin
      (fun p => pairCost (M p.1 p.1) (M p.1 p.2) (M p.2 p.2)) with
  | none => fun t => if t = 0 then 1 else 0
  | some p =>
      fun t =>
        pairGamma (M p.1 p.1) (M p.1 p.2) (M p.2 p.2) * (if t = p.1 then 1 else 0) +
          (1 - pairGamma (M p.1 p.1) (M p.1 p.2) (M p.2 p.2)) * (if t = p.2 then 1 else 0)

/-- Index of the minimum of `f` over `0, ..., K - 1` (first minimum wins). -/
def argminIdx (f : ℕ → ℚ) (K : ℕ) : ℕ :=
  (List.range K).foldl (fun b i => if f i < f b then i else b) 0

/-- The product of the Gram matrix with the current weights:
`(M w) t = sum_i w i * M i t`, the directional data of the Frank-Wolfe
step. -/
def gramMulW (M : ℕ → ℕ → ℚ) (K : ℕ) (w : ℕ → ℚ) (t : ℕ) : ℚ :=
  ∑ i in Finset.range K, w i * M i t

/-- The vertex chosen by the Frank-Wolfe step: the task index minimizing
the directional derivative of the squared norm. -/
def fwVertex (M : ℕ → ℕ → ℚ) (K : ℕ) (w : ℕ → ℚ) : ℕ :=
  argminIdx (gramMulW M K w) K

/-- Modelled from the spec: the analytic Frank-Wolfe step size toward the
chosen vertex, obtained from the closed-form 1D minimization along the
segment, with an equal-split fallback on a degenerate denominator, clipped
to `[0, 1]`. -/
def fwGamma (M : ℕ → ℕ → ℚ) (K : ℕ) (w : ℕ → ℚ) : ℚ :=
  if (∑ i in Finset.range K, w i * gramMulW M K w i) +
      M (fwVertex M K w) (fwVertex M K w) -
      2 * gramMulW M K w (fwVertex M K w) = 0 then 1 / 2
  else clip01 (((∑ i in Finset.range K, w i * gramMulW M K w i) -
      gramMulW M K w (fwVertex M K w)) /
    ((∑ i in Finset.range K, w i * gramMulW M K w i) +
      M (fwVertex M K w) (fwVertex M K w) -
      2 * gramMulW M K w (fwVertex M K w)))

/-- Modelled from the spec: the Frank-Wolfe refinement loop, stopping when
the computed step size drops below the tolerance `1e-5` or when the fuel
(the fixed iteration cap) runs out. -/
def fwIter (M : ℕ → ℕ → ℚ) (K : ℕ) : ℕ → (ℕ → ℚ) → (ℕ → ℚ)
  | 0, w => w
  | n + 1, w =>
      if fwGamma M K w < 1 / 100000 then w
      else fwIter M K n (fun i =>
        (1 - fwGamma M K w) * w i + fwGamma M K w * (if i = fwVertex M K w then 1 else 0))

/-- Modelled from the spec: `MinNormSolver.find_min_norm_element`.  Returns
the convex-combination weights (one per task) and the Gram values used
internally; a single task returns weight 1 without entering the loop. -/
def find_min_norm_element (grads : List (List (List ℚ))) : List ℚ × List (List ℚ) :=
  if grads.length = 1 then
    ([1],
      (List.range grads.length).map (fun i =>
        (List.range grads.length).map (fun j => gram grads i j)))
  else
    ((List.range grads.length).map
        (fwIter (gram grads) grads.length 250 (initWeights (gram grads) grads.length)),
      (List.range grads.length).map (fun i =>
        (List.range grads.length).map (fun j => gram grads i j)))

/-- A weight function is a simplex point on the first `K` indices. -/
def SimplexOn (K : ℕ) (w : ℕ → ℚ) : Prop :=
  (∀ i, 0 ≤ w i) ∧ ∑ i in Finset.range K, w i = 1

/-! ## Training-step loss combination (`CerberusMultiHeadTrain.train`) -/

/-- The second per-task pass of the training step: for each
`(task_i, (input, target))` in `enumerate(task_data_pair)` the model is run
on the task, the criterion is applied head by head over
`range(len(output))`, and the per-head losses are summed into
`task_loss[task_i]`.  `dO` and `dT` are the junk values read where Python
indexing would raise. -/
def stepTaskLosses {I O T : Type} (model : I → ℕ → List O) (criterion : O → T → ℚ)
    (dO : O) (dT : T) : ℕ → List (I × List T) → List ℚ
  | _, [] => []
  | k, (input, target) :: rest =>
      ((List.range (model input k).length).map (fun idx =>
        criterion ((model input k).getD idx dO) (target.getD idx dT))).sum ::
        stepTaskLosses model criterion dO dT (k + 1) rest

/-- The combination
`loss = sum([sol[i] * task_loss[i] for i in range(len(self.task_root_list))])`
that the training step backpropagates. -/
def stepCombinedLoss (sol taskLoss : List ℚ) (numTasks : ℕ) : ℚ :=
  ((List.range numTasks).map (fun i => sol.getD i 0 * taskLoss.getD i 0)).sum

/-! ## Concrete sample data used by witness instantiations -/

/-- A sample keypoint row: image 1, box 2, channel 1, keypoint (160, 160). -/
def exRow : Row := ⟨1, 2, 1, 160, 160⟩

/-- A one-row keypoint table. -/
def exKp : List Row := [exRow]

/-- A 1 × 1 × 1 reference array with a positive entry. -/
def exInput : RefArray := ⟨1, 1, 1, fun _ _ _ => 1⟩

/-- A 1 × 1 × 1 reference array with no positive entry. -/
def exInputZero : RefArray := ⟨1, 1, 1, fun _ _ _ => 0⟩

/-- A well-formed sample file name: `int("0001") = 1`, `int("2") = 2`. -/
def exGoodName : String := "o0001_2.mat"

/-- A malformed sample file name: characters 1-4 are `"ad.m"`. -/
def exBadName : String := "bad.mat"

end Strap

namespace Strap

open Matrix

/-! ## Helper lemmas -/

lemma foldl_max_le_one {α : Type} (g : α → ℕ) (hg : ∀ r, g r ≤ 1) (l : List α)
    (a : ℕ) (ha : a ≤ 1) : l.foldl (fun acc r => max acc (g r)) a ≤ 1 := by
  induction l generalizing a with
  | nil => exact ha
  | cons x xs ih => exact ih _ (max_le ha (hg x))

lemma maskBit_le_one (b : Btemp) (i j : ℕ) : maskBit b i j ≤ 1 := by
  unfold maskBit
  split <;> omega

lemma gaussiansChannel_le_one (kp : List Row) (img bb : ℤ) (input : RefArray)
    (ch i j : ℕ) : gaussiansChannel kp img bb input ch i j ≤ 1 := by
  unfold gaussiansChannel
  split
  · exact foldl_max_le_one _ (fun r => maskBit_le_one _ _ _) _ 0 (by omega)
  · omega

lemma foldl_max_init {α : Type} (g : α → ℕ) (l : List α) (a : ℕ) :
    l.foldl (fun acc r => max acc (g r)) a =
      max a (l.foldl (fun acc r => max acc (g r)) 0) := by
  induction l generalizing a with
  | nil => simp
  | cons x xs ih =>
      show xs.foldl _ (max a (g x)) = max a (xs.foldl _ (max 0 (g x)))
      rw [ih (max a (g x)), ih (max 0 (g x))]
      omega

lemma foldl_max_append {α : Type} (g : α → ℕ) (l1 l2 : List α) :
    (l1 ++ l2).foldl (fun acc r => max acc (g r)) 0 =
      max (l1.foldl (fun acc r => max acc (g r)) 0)
        (l2.foldl (fun acc r => max acc (g r)) 0) := by
  rw [List.foldl_append, foldl_max_init]

lemma foldl_max_eq_one_iff {α : Type} (g : α → ℕ) (hg : ∀ r, g r ≤ 1) (l : List α) :
    l.foldl (fun acc r => max acc (g r)) 0 = 1 ↔ ∃ r ∈ l, g r = 1 := by
  induction l with
  | nil => simp
  | cons x xs ih =>
      have hF := foldl_max_le_one g hg xs 0 (by omega)
      have hx := hg x
      rw [List.foldl_cons, foldl_max_init g xs (max 0 (g x))]
      constructor
      · intro h
        have hor : g x = 1 ∨ xs.foldl (fun acc r => max acc (g r)) 0 = 1 := by omega
        rcases hor with h1 | h1
        · exact ⟨x, List.mem_cons_self x xs, h1⟩
        · obtain ⟨r, hr, hgr⟩ := ih.mp h1
          exact ⟨r, List.mem_cons_of_mem x hr, hgr⟩
      · rintro ⟨r, hr, hgr⟩
        rcases List.mem_cons.mp hr with rfl | hr2
        · omega
        · have h1 := ih.mpr ⟨r, hr2, hgr⟩
          omega

lemma maskBit_eq_one_iff (b : Btemp) (i j : ℕ) :
    maskBit b i j = 1 ↔ llkhThresh b i j := by
  unfold maskBit
  split <;> simp [*]

lemma listSum_range (f : ℕ → ℚ) (n : ℕ) :
    ((List.range n).map f).sum = ∑ i in Finset.range n, f i := by
  induction n with
  | zero => simp
  | succ n ih =>
      rw [List.range_succ, List.map_append, List.sum_append, Finset.sum_range_succ, ih]
      simp

lemma inv_diag_two (v : ℝ) (hv : v ≠ 0) :
    (!![v, 0; 0, v] : Matrix (Fin 2) (Fin 2) ℝ)⁻¹ = !![v⁻¹, 0; 0, v⁻¹] := by
  apply Matrix.inv_eq_right_inv
  rw [Matrix.mul_fin_two, Matrix.one_fin_two]
  congr 1
  field_simp

lemma quadForm_diag_two (v a b : ℝ) :
    (![a, b] ⬝ᵥ ((!![v⁻¹, 0; 0, v⁻¹] : Matrix (Fin 2) (Fin 2) ℝ) *ᵥ ![a, b])) =
      (a ^ 2 + b ^ 2) / v := by
  simp [Matrix.mulVec, Matrix.dotProduct, Fin.sum_univ_two]
  ring

lemma det_diag_two (v : ℝ) :
    (!![v, 0; 0, v] : Matrix (Fin 2) (Fin 2) ℝ).det = v * v := by
  rw [Matrix.det_fin_two_of]
  ring

lemma get_llkh_eval (mr mc v : ℝ) (hv : 0 < v) (r c : ℝ) :
    get_llkh ⟨mr, mc, v, v, 0⟩ r c =
      (1 / Real.sqrt (v * v * (2 * Real.pi))) *
        Real.exp (-(1 / 2) * (((r - mr) ^ 2 + (c - mc) ^ 2) / v)) := by
  unfold get_llkh
  have hcov : covrcOf ⟨mr, mc, v, v, 0⟩ = !![v, 0; 0, v] := rfl
  rw [hcov, det_diag_two, inv_diag_two v hv.ne']
  dsimp only
  rw [quadForm_diag_two]

lemma specGaussianDensity_eval (mr mc v : ℝ) (hv : 0 < v) (r c : ℝ) :
    specGaussianDensity mr mc v r c =
      (1 / (2 * Real.pi * v)) *
        Real.exp (-(1 / 2) * (((r - mr) ^ 2 + (c - mc) ^ 2) / v)) := by
  unfold specGaussianDensity
  rw [det_diag_two, inv_diag_two v hv.ne', quadForm_diag_two,
    Real.sqrt_mul_self hv.le]

lemma allr_elem (i j : ℕ) (hj : j < crop_size) : allr (crop_size * i + j) = j + 1 := by
  unfold allr
  rw [Nat.mul_add_mod, Nat.mod_eq_of_lt hj]

lemma allc_elem (i j : ℕ) (hj : j < crop_size) : allc (crop_size * i + j) = i + 1 := by
  unfold allc
  rw [Nat.mul_add_div (by norm_num [crop_size]), Nat.div_eq_of_lt hj]

lemma llkhMax_center (v : ℝ) (hv : 0 < v) (r0 c0 : ℕ)
    (hr0 : 1 ≤ r0) (hr1 : r0 ≤ crop_size) (hc0 : 1 ≤ c0) (hc1 : c0 ≤ crop_size) :
    llkhMax ⟨(r0 : ℝ), (c0 : ℝ), v, v, 0⟩ = 1 / Real.sqrt (v * v * (2 * Real.pi)) := by
  unfold llkhMax
  apply le_antisymm
  · apply Finset.sup'_le
    intro k hk
    rw [get_llkh_eval _ _ _ hv]
    have hconst : (0 : ℝ) ≤ 1 / Real.sqrt (v * v * (2 * Real.pi)) := by positivity
    calc (1 / Real.sqrt (v * v * (2 * Real.pi))) *
          Real.exp (-(1 / 2) *
            (((((allr k : ℝ)) - r0) ^ 2 + (((allc k : ℝ)) - c0) ^ 2) / v)) ≤
        (1 / Real.sqrt (v * v * (2 * Real.pi))) * 1 := by
          apply mul_le_mul_of_nonneg_left _ hconst
          rw [Real.exp_le_one_iff]
          have hnum : (0 : ℝ) ≤ (((allr k : ℝ)) - r0) ^ 2 + (((allc k : ℝ)) - c0) ^ 2 := by
            positivity
          have hdiv : (0 : ℝ) ≤ ((((allr k : ℝ)) - r0) ^ 2 + (((allc k : ℝ)) - c0) ^ 2) / v :=
            div_nonneg hnum hv.le
          nlinarith
      _ = 1 / Real.sqrt (v * v * (2 * Real.pi)) := mul_one _
  · have hk0 : crop_size * (c0 - 1) + (r0 - 1) ∈ Finset.range (crop_size * crop_size) := by
      rw [Finset.mem_range]
      unfold crop_size at *
      omega
    have ha : allr (crop_size * (c0 - 1) + (r0 - 1)) = r0 := by
      rw [allr_elem _ _ (by unfold crop_size at *; omega)]
      omega
    have hb : allc (crop_size * (c0 - 1) + (r0 - 1)) = c0 := by
      rw [allc_elem _ _ (by unfold crop_size at *; omega)]
      omega
    refine le_trans (le_of_eq ?_)
      (Finset.le_sup' (fun k => get_llkh ⟨(r0 : ℝ), (c0 : ℝ), v, v, 0⟩ (allr k) (allc k)) hk0)
    rw [ha, hb, get_llkh_eval _ _ _ hv, sub_self]
    norm_num

lemma llkhThresh_iff (v : ℝ) (hv : 0 < v) (r0 c0 : ℕ)
    (hr0 : 1 ≤ r0) (hr1 : r0 ≤ crop_size) (hc0 : 1 ≤ c0) (hc1 : c0 ≤ crop_size)
    (i j : ℕ) (_hi : i < crop_size) (hj : j < crop_size) :
    llkhThresh ⟨(r0 : ℝ), (c0 : ℝ), v, v, 0⟩ i j ↔
      (((j : ℝ) + 1) - r0) ^ 2 + (((i : ℝ) + 1) - c0) ^ 2 < 2 * v := by
  unfold llkhThresh llkhAt
  rw [llkhMax_center v hv r0 c0 hr0 hr1 hc0 hc1,
    allr_elem i j hj, allc_elem i j hj, get_llkh_eval _ _ _ hv]
  have hcast1 : ((j + 1 : ℕ) : ℝ) = (j : ℝ) + 1 := by push_cast; ring
  have hcast2 : ((i + 1 : ℕ) : ℝ) = (i : ℝ) + 1 := by push_cast; ring
  rw [hcast1, hcast2]
  have hconst : (0 : ℝ) < 1 / Real.sqrt (v * v * (2 * Real.pi)) := by positivity
  rw [div_eq_mul_inv (1 / Real.sqrt (v * v * (2 * Real.pi))) (Real.exp 1),
    ← Real.exp_neg, mul_lt_mul_left hconst, Real.exp_lt_exp]
  have hrw : -(1 / 2 : ℝ) *
      (((((j : ℝ) + 1) - r0) ^ 2 + (((i : ℝ) + 1) - c0) ^ 2) / v) =
        -(((((j : ℝ) + 1) - r0) ^ 2 + (((i : ℝ) + 1) - c0) ^ 2) / (2 * v)) := by
    ring
  rw [hrw, neg_lt_neg_iff, div_lt_one (by positivity)]

lemma adj4_symm {p q : ℕ × ℕ} (h : adj4 p q) : adj4 q p := by
  unfold adj4 at *
  rcases h with ⟨h1, h2 | h2⟩ | ⟨h1, h2 | h2⟩
  · exact Or.inl ⟨h1.symm, Or.inr h2⟩
  · exact Or.inl ⟨h1.symm, Or.inl h2⟩
  · exact Or.inr ⟨h1.symm, Or.inr h2⟩
  · exact Or.inr ⟨h1.symm, Or.inl h2⟩

lemma connWithin_mem_right {S : Set (ℕ × ℕ)} {p q : ℕ × ℕ} (hp : p ∈ S)
    (h : connWithin S p q) : q ∈ S := by
  induction h with
  | refl => exact hp
  | tail hab hbc ih => exact hbc.1

lemma connWithin_symm {S : Set (ℕ × ℕ)} {p q : ℕ × ℕ} (hp : p ∈ S)
    (h : connWithin S p q) : connWithin S q p := by
  induction h with
  | refl => exact Relation.ReflTransGen.refl
  | tail hab hbc ih =>
      exact Relation.ReflTransGen.head
        ⟨connWithin_mem_right hp hab, adj4_symm hbc.2⟩ ih

lemma discSet_connected (r0 c0 : ℕ) (B : ℤ) (hr0 : 1 ≤ r0) (hr1 : r0 ≤ 321)
    (hc0 : 1 ≤ c0) (hc1 : c0 ≤ 321) :
    gridConnected {p : ℕ × ℕ | p.1 < 321 ∧ p.2 < 321 ∧
      ((p.2 : ℤ) + 1 - r0) ^ 2 + ((p.1 : ℤ) + 1 - c0) ^ 2 < B} := by
  set S : Set (ℕ × ℕ) := {p : ℕ × ℕ | p.1 < 321 ∧ p.2 < 321 ∧
      ((p.2 : ℤ) + 1 - r0) ^ 2 + ((p.1 : ℤ) + 1 - c0) ^ 2 < B} with hSdef
  have hmemS : ∀ a b : ℕ, ((a, b) ∈ S) ↔ (a < 321 ∧ b < 321 ∧
      ((b : ℤ) + 1 - r0) ^ 2 + ((a : ℤ) + 1 - c0) ^ 2 < B) := fun a b => Iff.rfl
  have key : ∀ n : ℕ, ∀ a b : ℕ, (a, b) ∈ S →
      (a + 1 - c0) + (c0 - (a + 1)) + ((b + 1 - r0) + (r0 - (b + 1))) = n →
      connWithin S (a, b) (c0 - 1, r0 - 1) := by
    intro n
    induction n using Nat.strong_induction_on with
    | _ n ih =>
        intro a b hab hn
        have hab2 := (hmemS a b).mp hab
        obtain ⟨hA, hB, hq⟩ := hab2
        rcases Nat.lt_trichotomy (a + 1) c0 with hlt | heq | hgt
        · have hnext : (a + 1, b) ∈ S := by
            rw [hmemS]
            refine ⟨by omega, hB, ?_⟩
            have hcast : ((a + 1 : ℕ) : ℤ) = (a : ℤ) + 1 := by push_cast; ring
            rw [hcast]
            have hx : (a : ℤ) + 1 - c0 ≤ -1 := by omega
            nlinarith [hq, hx]
          exact Relation.ReflTransGen.head ⟨hnext, Or.inr ⟨rfl, Or.inr rfl⟩⟩
            (ih _ (by omega) (a + 1) b hnext rfl)
        · rcases Nat.lt_trichotomy (b + 1) r0 with hlt2 | heq2 | hgt2
          · have hnext : (a, b + 1) ∈ S := by
              rw [hmemS]
              refine ⟨hA, by omega, ?_⟩
              have hcast : ((b + 1 : ℕ) : ℤ) = (b : ℤ) + 1 := by push_cast; ring
              rw [hcast]
              have hx : (b : ℤ) + 1 - r0 ≤ -1 := by omega
              nlinarith [hq, hx]
            exact Relation.ReflTransGen.head ⟨hnext, Or.inl ⟨rfl, Or.inr rfl⟩⟩
              (ih _ (by omega) a (b + 1) hnext rfl)
          · have ha2 : a = c0 - 1 := by omega
            have hb2 : b = r0 - 1 := by omega
            rw [ha2, hb2]
            exact Relation.ReflTransGen.refl
          · have hnext : (a, b - 1) ∈ S := by
              rw [hmemS]
              refine ⟨hA, by omega, ?_⟩
              have hcast : ((b - 1 : ℕ) : ℤ) = (b : ℤ) - 1 := by omega
              rw [hcast]
              have hx : 1 ≤ (b : ℤ) + 1 - r0 := by omega
              nlinarith [hq, hx]
            exact Relation.ReflTransGen.head ⟨hnext, Or.inl ⟨rfl, Or.inl (by omega)⟩⟩
              (ih _ (by omega) a (b - 1) hnext rfl)
        · have hnext : (a - 1, b) ∈ S := by
            rw [hmemS]
            refine ⟨by omega, hB, ?_⟩
            have hcast : ((a - 1 : ℕ) : ℤ) = (a : ℤ) - 1 := by omega
            rw [hcast]
            have hx : 1 ≤ (a : ℤ) + 1 - c0 := by omega
            nlinarith [hq, hx]
          exact Relation.ReflTransGen.head ⟨hnext, Or.inr ⟨rfl, Or.inl (by omega)⟩⟩
            (ih _ (by omega) (a - 1) b hnext rfl)
  rintro ⟨pa, pb⟩ hp ⟨qa, qb⟩ hq
  exact Relation.ReflTransGen.trans (key _ pa pb hp rfl)
    (connWithin_symm hq (key _ qa qb hq rfl))

lemma clip01_nonneg (x : ℚ) : 0 ≤ clip01 x := le_max_left 0 _

lemma clip01_le_one (x : ℚ) : clip01 x ≤ 1 :=
  max_le (by norm_num) (min_le_left 1 x)

lemma pairGamma_nonneg (vii vij vjj : ℚ) : 0 ≤ pairGamma vii vij vjj := by
  unfold pairGamma
  split
  · norm_num
  · exact clip01_nonneg _

lemma pairGamma_le_one (vii vij vjj : ℚ) : pairGamma vii vij vjj ≤ 1 := by
  unfold pairGamma
  split
  · norm_num
  · exact clip01_le_one _

lemma fwGamma_nonneg (M : ℕ → ℕ → ℚ) (K : ℕ) (w : ℕ → ℚ) : 0 ≤ fwGamma M K w := by
  unfold fwGamma
  split
  · norm_num
  · exact clip01_nonneg _

lemma fwGamma_le_one (M : ℕ → ℕ → ℚ) (K : ℕ) (w : ℕ → ℚ) : fwGamma M K w ≤ 1 := by
  unfold fwGamma
  split
  · norm_num
  · exact clip01_le_one _

lemma argminIdx_lt (f : ℕ → ℚ) (K : ℕ) (hK : 0 < K) : argminIdx f K < K := by
  unfold argminIdx
  have key : ∀ (l : List ℕ) (b : ℕ), b < K → (∀ x ∈ l, x < K) →
      l.foldl (fun b i => if f i < f b then i else b) b < K := by
    intro l
    induction l with
    | nil => intro b hb _; exact hb
    | cons x xs ih =>
        intro b hb hl
        show xs.foldl _ (if f x < f b then x else b) < K
        apply ih
        · split
          · exact hl x (List.mem_cons_self x xs)
          · exact hb
        · intro y hy
          exact hl y (List.mem_cons_of_mem x hy)
  exact key (List.range K) 0 hK (fun x hx => List.mem_range.mp hx)

lemma simplexOn_update (K : ℕ) (w : ℕ → ℚ) (γ : ℚ) (t : ℕ) (h0 : 0 ≤ γ)
    (h1 : γ ≤ 1) (ht : t < K) (hw : SimplexOn K w) :
    SimplexOn K (fun i => (1 - γ) * w i + γ * (if i = t then 1 else 0)) := by
  obtain ⟨hnn, hsum⟩ := hw
  constructor
  · intro i
    have hwi := hnn i
    have hind : (0 : ℚ) ≤ (if i = t then 1 else 0) := by split <;> norm_num
    have h2 : (0 : ℚ) ≤ 1 - γ := by linarith
    have ha := mul_nonneg h2 hwi
    have hb := mul_nonneg h0 hind
    show 0 ≤ (1 - γ) * w i + γ * (if i = t then 1 else 0)
    linarith
  · rw [Finset.sum_add_distrib, ← Finset.mul_sum, ← Finset.mul_sum, hsum,
      Finset.sum_ite_eq' (Finset.range K) t (fun _ => (1 : ℚ)),
      if_pos (Finset.mem_range.mpr ht)]
    ring

lemma fwIter_simplexOn (M : ℕ → ℕ → ℚ) (K : ℕ) (hK : 0 < K) (fuel : ℕ)
    (w : ℕ → ℚ) (hw : SimplexOn K w) : SimplexOn K (fwIter M K fuel w) := by
  induction fuel generalizing w with
  | zero => exact hw
  | succ n ih =>
      rw [fwIter]
      split
      · exact hw
      · exact ih _ (simplexOn_update K w _ _ (fwGamma_nonneg M K w)
          (fwGamma_le_one M K w) (argminIdx_lt _ _ hK) hw)

lemma mem_pairList {p : ℕ × ℕ} {K : ℕ} (h : p ∈ pairList K) :
    p.1 < p.2 ∧ p.2 < K := by
  unfold pairList at h
  simp only [List.mem_flatMap, List.mem_map, List.mem_filter, List.mem_range,
    decide_eq_true_eq] at h
  obtain ⟨i, hi, j, ⟨hjK, hij⟩, rfl⟩ := h
  exact ⟨hij, hjK⟩

lemma pairList_ne_nil {K : ℕ} (hK : 2 ≤ K) : pairList K ≠ [] := by
  intro h
  have hmem : (0, 1) ∈ pairList K := by
    unfold pairList
    simp only [List.mem_flatMap, List.mem_map, List.mem_filter, List.mem_range,
      decide_eq_true_eq]
    exact ⟨0, by omega, 1, ⟨by omega, by omega⟩, rfl⟩
  rw [h] at hmem
  exact absurd hmem (List.not_mem_nil _)

lemma initWeights_simplexOn (M : ℕ → ℕ → ℚ) (K : ℕ) (hK : 2 ≤ K) :
    SimplexOn K (initWeights M K) := by
  unfold initWeights
  cases hmin : (pairList K).argmin
      (fun p => pairCost (M p.1 p.1) (M p.1 p.2) (M p.2 p.2)) with
  | none => exact absurd (List.argmin_eq_none.mp hmin) (pairList_ne_nil hK)
  | some p =>
      dsimp only
      have hp : p ∈ pairList K := List.argmin_mem hmin
      obtain ⟨h12, h2K⟩ := mem_pairList hp
      constructor
      · intro i
        have g0 := pairGamma_nonneg (M p.1 p.1) (M p.1 p.2) (M p.2 p.2)
        have g1 := pairGamma_le_one (M p.1 p.1) (M p.1 p.2) (M p.2 p.2)
        have i1 : (0 : ℚ) ≤ (if i = p.1 then 1 else 0) := by split <;> norm_num
        have i2 : (0 : ℚ) ≤ (if i = p.2 then 1 else 0) := by split <;> norm_num
        have a1 := mul_nonneg g0 i1
        have a2 := mul_nonneg (by linarith : (0 : ℚ) ≤ 1 - pairGamma (M p.1 p.1) (M p.1 p.2) (M p.2 p.2)) i2
        show 0 ≤ pairGamma (M p.1 p.1) (M p.1 p.2) (M p.2 p.2) * (if i = p.1 then 1 else 0) +
          (1 - pairGamma (M p.1 p.1) (M p.1 p.2) (M p.2 p.2)) * (if i = p.2 then 1 else 0)
        linarith
      · rw [Finset.sum_add_distrib, ← Finset.mul_sum, ← Finset.mul_sum,
          Finset.sum_ite_eq' (Finset.range K) p.1 (fun _ => (1 : ℚ)),
          Finset.sum_ite_eq' (Finset.range K) p.2 (fun _ => (1 : ℚ)),
          if_pos (Finset.mem_range.mpr (lt_trans h12 h2K)),
          if_pos (Finset.mem_range.mpr h2K)]
        ring

lemma stepTaskLosses_getD {I O T : Type} (model : I → ℕ → List O)
    (criterion : O → T → ℚ) (dI : I) (dO : O) (dT : T) (k idx : ℕ)
    (pairs : List (I × List T)) (h : idx < pairs.length) :
    (stepTaskLosses model criterion dO dT k pairs).getD idx 0 =
      ((List.range (model (pairs.getD idx (dI, [])).1 (k + idx)).length).map (fun hd =>
        criterion ((model (pairs.getD idx (dI, [])).1 (k + idx)).getD hd dO)
          ((pairs.getD idx (dI, [])).2.getD hd dT))).sum := by
  induction pairs generalizing k idx with
  | nil => simp at h
  | cons p rest ih =>
      cases idx with
      | zero => rfl
      | succ m =>
          have hm : m < rest.length := by simpa using h
          show (stepTaskLosses model criterion dO dT (k + 1) rest).getD m 0 = _
          rw [ih (k + 1) m hm]
          have hk : k + 1 + m = k + (m + 1) := by omega
          rw [hk]
          rfl

/-! ## Claim theorems -/

/-- C7: every successful call of `gaussians` produces (and persists to
`save_path`) a volume of shape 321 × 321 × C, where C is the channel count
of the reference array loaded from `file_path`, every entry of which is 0
or 1 (hence exactly representable in the stored `uint8` dtype). -/
theorem gaussians_output_shape (kp : List Row) (fp : String) (input : RefArray)
    (img bb : ℤ) (hids : parseIds fp = Except.ok (img, bb)) :
    ∃ vol, gaussians kp fp input = Except.ok vol ∧ vol.height = 321 ∧ vol.width = 321 ∧
      vol.channels = input.channels ∧ ∀ i j ch, vol.val i j ch = 0 ∨ vol.val i j ch = 1 := by
  refine ⟨volumeOf kp img bb input, ?_, rfl, rfl, rfl, ?_⟩
  · unfold gaussians
    rw [hids]
  · intro i j ch
    show (if i < crop_size ∧ j < crop_size ∧ ch < input.channels then
        gaussiansChannel kp img bb input ch i j else 0) = 0 ∨
      (if i < crop_size ∧ j < crop_size ∧ ch < input.channels then
        gaussiansChannel kp img bb input ch i j else 0) = 1
    split
    · have h1 := gaussiansChannel_le_one kp img bb input ch i j
      omega
    · left; rfl

/-- Witness for C7 at a concrete well-formed file name. -/
theorem gaussians_output_shape_witness :
    parseIds exGoodName = Except.ok (1, 2) ∧
      ∃ vol, gaussians exKp exGoodName exInput = Except.ok vol ∧
        vol.height = 321 ∧ vol.width = 321 ∧ vol.channels = exInput.channels ∧
        ∀ i j ch, vol.val i j ch = 0 ∨ vol.val i j ch = 1 :=
  ⟨by rfl, gaussians_output_shape exKp exGoodName exInput 1 2 (by rfl)⟩

/-- C8: when the basename of `file_path` does not encode an integer image
id at character positions 1-4 and an integer bounding-box id at position 6,
`gaussians` fails with an error that propagates to the caller; the error
arises in the parsing prelude, before the output volume is even
constructed, so nothing is written to `save_path`. -/
theorem gaussians_malformed_name_error (kp : List Row) (fp : String) (input : RefArray)
    (h : (∃ e, pyInt (((basename fp).toList.drop 1).take 4) = Except.error e) ∨
      (basename fp).toList.get? 6 = none ∨
      (∃ ch e, (basename fp).toList.get? 6 = some ch ∧ pyInt [ch] = Except.error e)) :
    ∃ e, gaussians kp fp input = Except.error e := by
  have hp : ∃ e, parseIds fp = Except.error e := by
    unfold parseIds
    rcases h with ⟨e, he⟩ | hn | ⟨ch, e, hc, he⟩
    · exact ⟨e, by rw [he]⟩
    · cases h1 : pyInt (((basename fp).toList.drop 1).take 4) with
      | error e => exact ⟨e, rfl⟩
      | ok v => exact ⟨"string index out of range", by rw [hn]⟩
    · cases h1 : pyInt (((basename fp).toList.drop 1).take 4) with
      | error e2 => exact ⟨e2, rfl⟩
      | ok v => exact ⟨e, by simp only [hc, he]⟩
  obtain ⟨e, he⟩ := hp
  refine ⟨e, ?_⟩
  unfold gaussians
  rw [he]

/-- Witness for C8 at a concrete malformed file name. -/
theorem gaussians_malformed_name_error_witness :
    ((∃ e, pyInt (((basename exBadName).toList.drop 1).take 4) = Except.error e) ∨
      (basename exBadName).toList.get? 6 = none ∨
      (∃ ch e, (basename exBadName).toList.get? 6 = some ch ∧ pyInt [ch] = Except.error e)) ∧
      ∃ e, gaussians exKp exBadName exInput = Except.error e :=
  ⟨Or.inl ⟨"invalid literal for int", by rfl⟩,
    gaussians_malformed_name_error exKp exBadName exInput
      (Or.inl ⟨"invalid literal for int", by rfl⟩)⟩

/-- C9: `gaussians` is deterministic: two calls on an identical keypoint
table and identical reference array for the same sample produce identical
output volumes. -/
theorem gaussians_deterministic (kp kp2 : List Row) (fp : String)
    (input input2 : RefArray) (h1 : kp = kp2) (h2 : input = input2) :
    gaussians kp fp input = gaussians kp2 fp input2 := by
  rw [h1, h2]

/-- Witness for C9 at concrete inputs. -/
theorem gaussians_deterministic_witness :
    exKp = exKp ∧ exInput = exInput ∧
      gaussians exKp exGoodName exInput = gaussians exKp exGoodName exInput :=
  ⟨rfl, rfl, gaussians_deterministic exKp exKp exGoodName exInput exInput rfl rfl⟩

/-- C6: a channel of the reference array whose maximum is not positive, or
for which no keypoint row matches the sample's image id, bounding-box id
and 1-based channel index, yields an all-zero output channel, and the call
still completes without an error. -/
theorem gaussians_zero_channel (kp : List Row) (fp : String) (input : RefArray)
    (img bb : ℤ) (ch : ℕ) (hids : parseIds fp = Except.ok (img, bb))
    (hcond : anyPositive input ch = false ∨ matchedRows kp img bb ch = []) :
    ∃ vol, gaussians kp fp input = Except.ok vol ∧ ∀ i j, vol.val i j ch = 0 := by
  refine ⟨volumeOf kp img bb input, ?_, ?_⟩
  · unfold gaussians
    rw [hids]
  · intro i j
    show (if i < crop_size ∧ j < crop_size ∧ ch < input.channels then
      gaussiansChannel kp img bb input ch i j else 0) = 0
    split
    · unfold gaussiansChannel
      rcases hcond with hc | hc
      · simp [hc]
      · rw [hc]
        split <;> rfl
    · rfl

/-- Witness for C6: a channel with a non-positive reference maximum. -/
theorem gaussians_zero_channel_witness :
    parseIds exGoodName = Except.ok (1, 2) ∧
      (anyPositive exInputZero 0 = false ∨ matchedRows exKp 1 2 0 = []) ∧
      ∃ vol, gaussians exKp exGoodName exInputZero = Except.ok vol ∧
        ∀ i j, vol.val i j 0 = 0 :=
  ⟨by rfl, Or.inl (by rfl),
    gaussians_zero_channel exKp exGoodName exInputZero 1 2 0 (by rfl) (Or.inl (by rfl))⟩

/-- C2: a synthesized channel is the pixel-wise union (realized as a
pixel-wise maximum) of the single-keypoint thresholded masks: splitting the
keypoint table splits the channel into a pixel-wise maximum, and a pixel is
on exactly when some matching keypoint's thresholded blob covers it. -/
theorem gaussians_channel_union (kp1 kp2 kp : List Row) (img bb : ℤ)
    (input : RefArray) (ch i j : ℕ) (hpos : anyPositive input ch = true) :
    gaussiansChannel (kp1 ++ kp2) img bb input ch i j =
      max (gaussiansChannel kp1 img bb input ch i j)
        (gaussiansChannel kp2 img bb input ch i j) ∧
    (gaussiansChannel kp img bb input ch i j = 1 ↔
      ∃ r ∈ matchedRows kp img bb ch, llkhThresh (btempOf r) i j) := by
  constructor
  · unfold gaussiansChannel
    simp only [hpos, if_true]
    unfold matchedRows
    rw [List.filter_append, List.filter_append, List.filter_append]
    exact foldl_max_append _ _ _
  · unfold gaussiansChannel
    simp only [hpos, if_true]
    rw [foldl_max_eq_one_iff _ (fun r => maskBit_le_one _ _ _)]
    exact exists_congr fun r => and_congr_right fun _ => maskBit_eq_one_iff _ i j

/-- Witness for C2 at concrete tables and a positive reference channel. -/
theorem gaussians_channel_union_witness :
    anyPositive exInput 0 = true ∧
      (gaussiansChannel (exKp ++ []) 1 2 exInput 0 0 0 =
        max (gaussiansChannel exKp 1 2 exInput 0 0 0)
          (gaussiansChannel [] 1 2 exInput 0 0 0) ∧
      (gaussiansChannel exKp 1 2 exInput 0 0 0 = 1 ↔
        ∃ r ∈ matchedRows exKp 1 2 0, llkhThresh (btempOf r) 0 0)) :=
  ⟨by rfl, gaussians_channel_union exKp [] exKp 1 2 exInput 0 0 0 (by rfl)⟩

/-- C10: keypoint rows whose 1-based channel index is not one of
`1, ..., C` (C the number of reference channels) are silently ignored:
removing them leaves the result of `gaussians` unchanged, and in
particular their presence never turns a successful call into an error. -/
theorem gaussians_ignores_out_of_range_channels (kp : List Row) (fp : String)
    (input : RefArray) :
    gaussians (kp.filter (fun r => inRangeChannel input.channels r.channel)) fp input =
      gaussians kp fp input := by
  unfold gaussians
  cases hids : parseIds fp with
  | error e => rfl
  | ok ids =>
      have hval : ∀ ch i j, ch < input.channels →
          gaussiansChannel (kp.filter (fun r => inRangeChannel input.channels r.channel))
            ids.1 ids.2 input ch i j = gaussiansChannel kp ids.1 ids.2 input ch i j := by
        intro ch i j hch
        unfold gaussiansChannel
        have hrows : matchedRows (kp.filter (fun r => inRangeChannel input.channels r.channel))
            ids.1 ids.2 ch = matchedRows kp ids.1 ids.2 ch := by
          unfold matchedRows
          rw [List.filter_comm _ (fun (r : Row) => inRangeChannel input.channels r.channel) kp,
            List.filter_comm _ (fun (r : Row) => inRangeChannel input.channels r.channel) _,
            List.filter_comm _ (fun (r : Row) => inRangeChannel input.channels r.channel) _]
          apply List.filter_eq_self.mpr
          intro r hr
          have hr3 := List.mem_filter.mp hr
          have hchan : r.channel = (ch : ℚ) + 1 := of_decide_eq_true hr3.2
          unfold inRangeChannel
          rw [List.any_eq_true]
          exact ⟨ch, List.mem_range.mpr hch, by rw [hchan]; simp⟩
        rw [hrows]
      have hvol : volumeOf (kp.filter (fun r => inRangeChannel input.channels r.channel))
          ids.1 ids.2 input = volumeOf kp ids.1 ids.2 input := by
        unfold volumeOf
        congr 1
        funext i j ch
        by_cases hg : i < crop_size ∧ j < crop_size ∧ ch < input.channels
        · simp only [hg, if_true]
          exact hval ch i j hg.2.2
        · simp only [hg, if_false]
      show Except.ok (volumeOf (kp.filter (fun r => inRangeChannel input.channels r.channel))
          ids.1 ids.2 input) = Except.ok (volumeOf kp ids.1 ids.2 input)
      rw [hvol]

/-- C4: the scalar the training step backpropagates after the solver
returns `sol` is exactly `Σ_i sol[i] * task_loss[i]`, where `task_loss[i]`
is the sum of the per-head criterion losses of task `i` on that step's
data. -/
theorem train_step_combined_loss {I O T : Type} (model : I → ℕ → List O)
    (criterion : O → T → ℚ) (dI : I) (dO : O) (dT : T) (sol : List ℚ)
    (pairs : List (I × List T)) (K : ℕ) (hK : K = pairs.length) :
    stepCombinedLoss sol (stepTaskLosses model criterion dO dT 0 pairs) K =
      ∑ i in Finset.range K, sol.getD i 0 *
        ∑ idx in Finset.range (model (pairs.getD i (dI, [])).1 i).length,
          criterion ((model (pairs.getD i (dI, [])).1 i).getD idx dO)
            ((pairs.getD i (dI, [])).2.getD idx dT) := by
  subst hK
  unfold stepCombinedLoss
  rw [listSum_range]
  apply Finset.sum_congr rfl
  intro i hi
  rw [Finset.mem_range] at hi
  rw [stepTaskLosses_getD model criterion dI dO dT 0 i pairs hi]
  rw [Nat.zero_add, listSum_range]

/-- Witness for C4 at a concrete one-task instance. -/
theorem train_step_combined_loss_witness :
    (1 = List.length [((1 : ℚ), [(2 : ℚ)])]) ∧
      stepCombinedLoss [(3 : ℚ)]
          (stepTaskLosses (fun (x : ℚ) (_ : ℕ) => [x]) (fun o t => o * t) 0 0 0
            [((1 : ℚ), [(2 : ℚ)])]) 1 =
        ∑ i in Finset.range 1, ([(3 : ℚ)].getD i 0) *
          ∑ idx in Finset.range
              (((fun (x : ℚ) (_ : ℕ) => [x]) ([((1 : ℚ), [(2 : ℚ)])].getD i ((0 : ℚ), [])).1 i).length),
            (fun (o t : ℚ) => o * t)
              ((((fun (x : ℚ) (_ : ℕ) => [x]) ([((1 : ℚ), [(2 : ℚ)])].getD i ((0 : ℚ), [])).1 i)).getD idx 0)
              (([((1 : ℚ), [(2 : ℚ)])].getD i ((0 : ℚ), [])).2.getD idx 0) :=
  ⟨rfl, train_step_combined_loss (fun (x : ℚ) (_ : ℕ) => [x]) (fun o t => o * t)
    0 0 0 [(3 : ℚ)] [((1 : ℚ), [(2 : ℚ)])] 1 rfl⟩

/-- C3: for every non-empty list of per-task gradient lists, the weight
vector returned by `find_min_norm_element` has exactly one entry per task,
every entry is non-negative, and the entries sum to exactly 1 (hence to 1
within any floating-point tolerance). -/
theorem find_min_norm_element_simplex (grads : List (List (List ℚ)))
    (h : grads ≠ []) :
    (find_min_norm_element grads).1.length = grads.length ∧
      (∀ x ∈ (find_min_norm_element grads).1, 0 ≤ x) ∧
      (find_min_norm_element grads).1.sum = 1 := by
  have hK : 0 < grads.length := List.length_pos.mpr h
  unfold find_min_norm_element
  by_cases h1 : grads.length = 1
  · rw [if_pos h1]
    refine ⟨by simp [h1], ?_, by simp⟩
    intro x hx
    have hx1 : x = 1 := by simpa using hx
    rw [hx1]
    norm_num
  · rw [if_neg h1]
    have hK2 : 2 ≤ grads.length := by omega
    have hs := fwIter_simplexOn (gram grads) grads.length hK 250
      (initWeights (gram grads) grads.length)
      (initWeights_simplexOn (gram grads) grads.length hK2)
    refine ⟨by simp, ?_, ?_⟩
    · intro x hx
      simp only [List.mem_map, List.mem_range] at hx
      obtain ⟨i, hi, rfl⟩ := hx
      exact hs.1 i
    · rw [listSum_range]
      exact hs.2

/-- C1: when exactly one keypoint row matches a channel and its keypoint
`(row, column)` lies on the 321 × 321 grid, the set of on pixels of that
output channel is exactly the set of grid pixels whose 1-based coordinate
pair lies at Euclidean distance less than `50 * sqrt 2` from the keypoint
(pixel `(i, j)` of the stored array carries coordinates
`(row, column) = (j + 1, i + 1)`), and this set is a 4-connected
discretized disc. -/
theorem gaussians_single_keypoint_disc (kp : List Row) (img bb : ℤ)
    (input : RefArray) (ch : ℕ) (row : Row) (r0 c0 : ℕ)
    (hch : ch < input.channels) (hpos : anyPositive input ch = true)
    (hmatch : matchedRows kp img bb ch = [row])
    (hrow : row.row = (r0 : ℚ)) (hcol : row.col = (c0 : ℚ))
    (hr0 : 1 ≤ r0) (hr1 : r0 ≤ 321) (hc0 : 1 ≤ c0) (hc1 : c0 ≤ 321) :
    onSet kp img bb input ch =
      {p : ℕ × ℕ | p.1 < 321 ∧ p.2 < 321 ∧
        Real.sqrt ((((p.2 : ℝ) + 1) - r0) ^ 2 + (((p.1 : ℝ) + 1) - c0) ^ 2) <
          50 * Real.sqrt 2} ∧
    gridConnected (onSet kp img bb input ch) := by
  have hv : (0 : ℝ) < (gaussian_size : ℝ) ^ 2 := by norm_num [gaussian_size]
  have hbt : btempOf row =
      ⟨((r0 : ℕ) : ℝ), ((c0 : ℕ) : ℝ), (gaussian_size : ℝ) ^ 2,
        (gaussian_size : ℝ) ^ 2, 0⟩ := by
    unfold btempOf
    rw [hrow, hcol]
    norm_num
  have hmem : ∀ i j : ℕ, ((i, j) ∈ onSet kp img bb input ch) ↔
      (i < 321 ∧ j < 321 ∧
        (((j : ℝ) + 1) - r0) ^ 2 + (((i : ℝ) + 1) - c0) ^ 2 <
          2 * (gaussian_size : ℝ) ^ 2) := by
    intro i j
    show (if i < crop_size ∧ j < crop_size ∧ ch < input.channels then
        gaussiansChannel kp img bb input ch i j else 0) = 1 ↔ _
    by_cases hg : i < crop_size ∧ j < crop_size ∧ ch < input.channels
    · rw [if_pos hg]
      have hchan : gaussiansChannel kp img bb input ch i j =
          maskBit (btempOf row) i j := by
        unfold gaussiansChannel
        simp only [hpos, if_true]
        rw [hmatch]
        simp only [List.foldl_cons, List.foldl_nil, Nat.zero_max]
      rw [hchan, maskBit_eq_one_iff, hbt,
        llkhThresh_iff _ hv r0 c0 hr0 hr1 hc0 hc1 i j hg.1 hg.2.1]
      constructor
      · intro h
        exact ⟨hg.1, hg.2.1, h⟩
      · intro h
        exact h.2.2
    · rw [if_neg hg]
      have hfalse : ¬(i < 321 ∧ j < 321 ∧
          (((j : ℝ) + 1) - r0) ^ 2 + (((i : ℝ) + 1) - c0) ^ 2 <
            2 * (gaussian_size : ℝ) ^ 2) := by
        intro hcontra
        exact hg ⟨hcontra.1, hcontra.2.1, hch⟩
      exact iff_of_false (by norm_num) hfalse
  have hgv : 2 * (gaussian_size : ℝ) ^ 2 = 5000 := by norm_num [gaussian_size]
  have hsetZ : onSet kp img bb input ch =
      {p : ℕ × ℕ | p.1 < 321 ∧ p.2 < 321 ∧
        ((p.2 : ℤ) + 1 - r0) ^ 2 + ((p.1 : ℤ) + 1 - c0) ^ 2 < 5000} := by
    ext ⟨i, j⟩
    rw [hmem i j]
    refine and_congr_right fun h1 => and_congr_right fun h2 => ?_
    have hcast : (((j : ℝ) + 1) - r0) ^ 2 + (((i : ℝ) + 1) - c0) ^ 2 =
        ((((j : ℤ) + 1 - r0) ^ 2 + ((i : ℤ) + 1 - c0) ^ 2 : ℤ) : ℝ) := by
      push_cast
      ring
    rw [hgv, hcast]
    exact_mod_cast Iff.rfl
  constructor
  · ext ⟨i, j⟩
    rw [hmem i j]
    simp only [Set.mem_setOf_eq]
    refine and_congr_right fun h1 => and_congr_right fun h2 => ?_
    rw [Real.sqrt_lt' (by positivity : (0 : ℝ) < 50 * Real.sqrt 2)]
    have hsq : (50 * Real.sqrt 2) ^ 2 = 5000 := by
      rw [mul_pow, Real.sq_sqrt (by norm_num : (0 : ℝ) ≤ 2)]
      norm_num
    rw [hsq, hgv]
  · rw [hsetZ]
    exact discSet_connected r0 c0 5000 hr0 hr1 hc0 hc1

/-- Witness for C1: keypoint (160, 160) in a one-row table, one positive
reference channel. -/
theorem gaussians_single_keypoint_disc_witness :
    (0 < exInput.channels ∧ anyPositive exInput 0 = true ∧
      matchedRows exKp 1 2 0 = [exRow] ∧ exRow.row = ((160 : ℕ) : ℚ) ∧
      exRow.col = ((160 : ℕ) : ℚ) ∧ 1 ≤ 160 ∧ 160 ≤ 321) ∧
    (onSet exKp 1 2 exInput 0 =
      {p : ℕ × ℕ | p.1 < 321 ∧ p.2 < 321 ∧
        Real.sqrt ((((p.2 : ℝ) + 1) - ((160 : ℕ) : ℝ)) ^ 2 +
            (((p.1 : ℝ) + 1) - ((160 : ℕ) : ℝ)) ^ 2) <
          50 * Real.sqrt 2} ∧
      gridConnected (onSet exKp 1 2 exInput 0)) :=
  ⟨⟨by decide, by rfl, by simp [matchedRows, exKp, exRow], by norm_num [exRow],
      by norm_num [exRow], by norm_num, by norm_num⟩,
    gaussians_single_keypoint_disc exKp 1 2 exInput 0 exRow 160 160
      (by decide) (by rfl) (by simp [matchedRows, exKp, exRow]) (by norm_num [exRow])
      (by norm_num [exRow]) (by norm_num) (by norm_num) (by norm_num) (by norm_num)⟩

/-- C5 amended: on every grid point (1-based coordinates through `allr`,
`allc`), the surface computed by `get_llkh` from
`btemp = [row, column, 50^2, 50^2, 0]` equals `sqrt(2 * pi)` times the 2D
Gaussian probability density with mean `(row, column)` and covariance
`diag(50^2, 50^2)`: the code's normalizing constant is
`1 / sqrt(2 * pi * det)` where the density's is `1 / (2 * pi * sqrt det)`. -/
theorem get_llkh_eq_sqrt_two_pi_mul_density (r0 c0 : ℝ) (k : ℕ) :
    get_llkh ⟨r0, c0, (gaussian_size : ℝ) ^ 2, (gaussian_size : ℝ) ^ 2, 0⟩
        (allr k) (allc k) =
      Real.sqrt (2 * Real.pi) *
        specGaussianDensity r0 c0 ((gaussian_size : ℝ) ^ 2) (allr k) (allc k) := by
  have hv : (0 : ℝ) < (gaussian_size : ℝ) ^ 2 := by norm_num [gaussian_size]
  rw [get_llkh_eval _ _ _ hv, specGaussianDensity_eval _ _ _ hv]
  have h2pi : (0 : ℝ) < 2 * Real.pi := by positivity
  have hsqrt : Real.sqrt ((gaussian_size : ℝ) ^ 2 * (gaussian_size : ℝ) ^ 2 * (2 * Real.pi))
      = (gaussian_size : ℝ) ^ 2 * Real.sqrt (2 * Real.pi) := by
    rw [Real.sqrt_mul (by positivity), Real.sqrt_mul_self (by positivity)]
  rw [hsqrt, ← mul_assoc]
  congr 1
  have hss : Real.sqrt (2 * Real.pi) * Real.sqrt (2 * Real.pi) = 2 * Real.pi :=
    Real.mul_self_sqrt h2pi.le
  have hsp : (0 : ℝ) < Real.sqrt (2 * Real.pi) := Real.sqrt_pos.mpr h2pi
  rw [mul_one_div, div_eq_div_iff (by positivity) (by positivity)]
  linear_combination (-(gaussian_size : ℝ) ^ 2) * hss

/-- C5 counterexample: at the concrete grid point with 1-based coordinates
(160, 160) and keypoint (160, 160), the surface value of `get_llkh` is not
the 2D Gaussian probability density there (the normalizing constants
differ by the factor `sqrt(2 * pi)`). -/
theorem get_llkh_ne_density :
    get_llkh ⟨160, 160, (gaussian_size : ℝ) ^ 2, (gaussian_size : ℝ) ^ 2, 0⟩
        (allr (321 * 159 + 159)) (allc (321 * 159 + 159)) ≠
      specGaussianDensity 160 160 ((gaussian_size : ℝ) ^ 2)
        (allr (321 * 159 + 159)) (allc (321 * 159 + 159)) := by
  have hr : allr (321 * 159 + 159) = 160 := by norm_num [allr, crop_size]
  have hc : allc (321 * 159 + 159) = 160 := by norm_num [allc, crop_size]
  rw [hr, hc]
  have hv : (0 : ℝ) < (gaussian_size : ℝ) ^ 2 := by norm_num [gaussian_size]
  rw [get_llkh_eval _ _ _ hv, specGaussianDensity_eval _ _ _ hv]
  have hcast : ((160 : ℕ) : ℝ) = (160 : ℝ) := by norm_num
  rw [hcast, sub_self]
  have hexp : (-(1 / 2) * ((((0 : ℝ)) ^ 2 + 0 ^ 2) / (gaussian_size : ℝ) ^ 2)) = 0 := by
    norm_num
  rw [hexp, Real.exp_zero, mul_one, mul_one]
  have h2pi : (0 : ℝ) < 2 * Real.pi := by positivity
  have hsqrt : Real.sqrt ((gaussian_size : ℝ) ^ 2 * (gaussian_size : ℝ) ^ 2 * (2 * Real.pi))
      = (gaussian_size : ℝ) ^ 2 * Real.sqrt (2 * Real.pi) := by
    rw [Real.sqrt_mul (by positivity), Real.sqrt_mul_self (by positivity)]
  rw [hsqrt]
  have hlt : Real.sqrt (2 * Real.pi) < 2 * Real.pi := by
    rw [Real.sqrt_lt' h2pi]
    nlinarith [Real.pi_gt_three]
  have h1 : (0 : ℝ) < (gaussian_size : ℝ) ^ 2 * Real.sqrt (2 * Real.pi) := by
    have hsp := Real.sqrt_pos.mpr h2pi
    positivity
  have h2 : (gaussian_size : ℝ) ^ 2 * Real.sqrt (2 * Real.pi) <
      2 * Real.pi * (gaussian_size : ℝ) ^ 2 := by nlinarith [hlt, hv]
  exact ne_of_gt (one_div_lt_one_div_of_lt h1 h2)

/-- Witness for C3 at a concrete two-task gradient list. -/
theorem find_min_norm_element_simplex_witness :
    ([[[(1 : ℚ), 0]], [[(0 : ℚ), 1]]] : List (List (List ℚ))) ≠ [] ∧
      ((find_min_norm_element [[[(1 : ℚ), 0]], [[(0 : ℚ), 1]]]).1.length =
        ([[[(1 : ℚ), 0]], [[(0 : ℚ), 1]]] : List (List (List ℚ))).length ∧
      (∀ x ∈ (find_min_norm_element [[[(1 : ℚ), 0]], [[(0 : ℚ), 1]]]).1, 0 ≤ x) ∧
      (find_min_norm_element [[[(1 : ℚ), 0]], [[(0 : ℚ), 1]]]).1.sum = 1) :=
  ⟨by simp, find_min_norm_element_simplex [[[(1 : ℚ), 0]], [[(0 : ℚ), 1]]] (by simp)⟩

end Strap
